import Mathlib

/-!
Verification of the debate-cards deduplication engine.

The TypeScript source keeps its per-entity state in JavaScript `Map`s
(insertion-ordered key/value maps).  We embed such a map as an ordered
association list `List (Nat × Nat)`; `jsSet` updates an existing entry in
place (keeping its position, as `Map.set` does) and appends a fresh key at
the end, `jsDelete` removes the entry, `jsGet` returns the value of the
first (and, under the `Map` invariant, only) entry with the key.
-/

namespace DebateCards

variable {α : Type}

/-- Lookup in a JS `Map` modelled as an ordered association list. -/
def jsGet (m : List (Nat × α)) (k : Nat) : Option α :=
  (m.find? (fun e => e.1 = k)).map (·.2)

/-- Membership test, `Map.has`. -/
def jsHas (m : List (Nat × α)) (k : Nat) : Bool :=
  (jsGet m k).isSome

/-- JS `Map.set`: overwrite in place if the key exists, else append. -/
def jsSet : List (Nat × α) → Nat → α → List (Nat × α)
  | [], k, v => [(k, v)]
  | e :: rest, k, v => if e.1 = k then (k, v) :: rest else e :: jsSet rest k v

/-- JS `Map.delete`: drop the entry with the key. -/
def jsDelete (m : List (Nat × α)) (k : Nat) : List (Nat × α) :=
  m.filter (fun e => e.1 ≠ k)

@[simp] theorem jsGet_nil (k : Nat) : jsGet ([] : List (Nat × α)) k = none := rfl

theorem jsGet_cons (e : Nat × α) (m : List (Nat × α)) (k : Nat) :
    jsGet (e :: m) k = if e.1 = k then some e.2 else jsGet m k := by
  simp only [jsGet, List.find?]
  by_cases h : e.1 = k <;> simp [h]

theorem jsGet_jsSet (m : List (Nat × α)) (k k' : Nat) (v : α) :
    jsGet (jsSet m k v) k' = if k' = k then some v else jsGet m k' := by
  induction m with
  | nil =>
    simp only [jsSet, jsGet_cons, jsGet_nil]
    by_cases h : k' = k
    · simp [h]
    · have h2 : ¬(k = k') := fun hk => h hk.symm
      simp [h, h2]
  | cons e rest ih =>
    by_cases hek : e.1 = k
    · simp only [jsSet, if_pos hek, jsGet_cons]
      by_cases h : k' = k
      · simp [h]
      · have h2 : ¬(k = k') := fun hk => h hk.symm
        have h3 : ¬(e.1 = k') := fun hk => h (hk.symm.trans hek)
        simp [h, h2, h3]
    · simp only [jsSet, if_neg hek]
      rw [jsGet_cons, ih, jsGet_cons]
      by_cases h : e.1 = k'
      · have h2 : ¬(k' = k) := fun hk => hek (h.trans hk)
        simp [h, h2]
      · simp [h]

theorem length_jsSet_of_has (m : List (Nat × α)) (k : Nat) (v : α)
    (h : jsHas m k = true) : (jsSet m k v).length = m.length := by
  induction m with
  | nil => simp [jsHas, jsGet] at h
  | cons e rest ih =>
    by_cases hek : e.1 = k
    · simp [jsSet, hek]
    · simp only [jsSet, hek, if_false, List.length_cons]
      rw [ih]
      simpa [jsHas, jsGet_cons, hek] using h

theorem length_jsSet_le (m : List (Nat × α)) (k : Nat) (v : α) :
    (jsSet m k v).length ≤ m.length + 1 := by
  induction m with
  | nil => simp [jsSet]
  | cons e rest ih =>
    by_cases hek : e.1 = k <;> simp [jsSet, hek]
    omega

theorem length_jsDelete_le (m : List (Nat × α)) (k : Nat) :
    (jsDelete m k).length ≤ m.length :=
  List.length_filter_le _ m

theorem jsDelete_cons_self (e : Nat × α) (m : List (Nat × α)) (k : Nat)
    (hek : e.1 = k) : jsDelete (e :: m) k = jsDelete m k := by
  simp [jsDelete, List.filter_cons, hek]

theorem jsDelete_cons_ne (e : Nat × α) (m : List (Nat × α)) (k : Nat)
    (hek : ¬(e.1 = k)) : jsDelete (e :: m) k = e :: jsDelete m k := by
  simp [jsDelete, List.filter_cons, hek]

theorem length_jsDelete_lt_of_has (m : List (Nat × α)) (k : Nat)
    (h : jsHas m k = true) : (jsDelete m k).length < m.length := by
  induction m with
  | nil => simp [jsHas, jsGet] at h
  | cons e rest ih =>
    by_cases hek : e.1 = k
    · have h1 : (jsDelete rest k).length ≤ rest.length := length_jsDelete_le rest k
      rw [jsDelete_cons_self e rest k hek, List.length_cons]
      omega
    · have hrest : jsHas rest k = true := by
        simpa [jsHas, jsGet_cons, hek] using h
      rw [jsDelete_cons_ne e rest k hek, List.length_cons, List.length_cons]
      exact Nat.succ_lt_succ (ih hrest)

theorem jsHas_jsSet (m : List (Nat × α)) (k k' : Nat) (v : α) :
    jsHas (jsSet m k v) k' = (decide (k' = k) || jsHas m k') := by
  by_cases h : k' = k <;> simp [jsHas, jsGet_jsSet, h]

theorem jsGet_jsDelete_self (m : List (Nat × α)) (k : Nat) :
    jsGet (jsDelete m k) k = none := by
  induction m with
  | nil => rfl
  | cons e rest ih =>
    by_cases hek : e.1 = k
    · rw [jsDelete_cons_self e rest k hek]; exact ih
    · rw [jsDelete_cons_ne e rest k hek, jsGet_cons]; simp [hek, ih]

theorem jsGet_jsDelete_ne (m : List (Nat × α)) (k k' : Nat) (h : k' ≠ k) :
    jsGet (jsDelete m k) k' = jsGet m k' := by
  induction m with
  | nil => rfl
  | cons e rest ih =>
    by_cases hek : e.1 = k
    · rw [jsDelete_cons_self e rest k hek, jsGet_cons]
      have h2 : ¬(e.1 = k') := fun hh => h ((hh.symm.trans hek))
      simp [h2, ih]
    · rw [jsDelete_cons_ne e rest k hek, jsGet_cons, jsGet_cons, ih]

theorem jsHas_of_mem (m : List (Nat × α)) (c : Nat) (n : α) (h : (c, n) ∈ m) :
    jsHas m c = true := by
  induction m with
  | nil => simp at h
  | cons e rest ih =>
    rcases List.mem_cons.mp h with h | h
    · simp [jsHas, jsGet_cons, ← h]
    · by_cases hek : e.1 = c
      · simp [jsHas, jsGet_cons, hek]
      · simpa [jsHas, jsGet_cons, hek] using ih h

/-!
Thresholds, from `constants`/`index.ts`:
`SHOULD_MATCH = (matching, total) => matching / total > 0.5` and
`SHOULD_MERGE = (matching, total) => matching > 5 || matching / total >= 0.2`.
The JS division is on doubles; for nonneg integer counts (far below 2^53)
the comparisons are exact, including `total = 0`: `x/0` is `Infinity` for
`x > 0` (both comparisons true) and `0/0` is `NaN` (both false).  Over
`Nat` they become `2 * matching > total` and
`matching > 5 ∨ (matching > 0 ∧ 5 * matching ≥ total)`.
-/

def SHOULD_MATCH (matching total : Nat) : Bool :=
  total < 2 * matching

def SHOULD_MERGE (matching total : Nat) : Bool :=
  5 < matching || (0 < matching && total ≤ 5 * matching)

/-- JS `SHOULD_MERGE(map.get(k), total)` where the lookup may be `undefined`:
`undefined > 5` and `NaN >= 0.2` are both false. -/
def SHOULD_MERGE_OPT (matching : Option Nat) (total : Nat) : Bool :=
  match matching with
  | none => false
  | some m => SHOULD_MERGE m total

/-!
SubBucket (newest revision, `SubBucket.ts`): `cards` maps member cardIds to
internal match counts, `matching` maps non-member cardIds to external match
counts, `bucketSetId` names the owning BucketSet.
-/

structure SubBucketState where
  cards : List (Nat × Nat)
  matching : List (Nat × Nat)
  bucketSetId : Nat
  deriving Repr, DecidableEq

namespace SubBucket

/-- Member list: `[...this.cards.keys()]`. -/
def members (s : SubBucketState) : List Nat := s.cards.map Prod.fst

/-- Size: `this.cards.size`. -/
def size (s : SubBucketState) : Nat := s.cards.length

/-- One step of `addCard`'s loop over `matches`: members get both their own
and the new card's internal count bumped, non-members get their external
count bumped (default 0). -/
def addCardStep (id : Nat) (st : SubBucketState) (mt : Nat) : SubBucketState :=
  if jsHas st.cards mt then
    let c1 := jsSet st.cards id ((jsGet st.cards id).getD 0 + 1)
    { st with cards := jsSet c1 mt ((jsGet c1 mt).getD 0 + 1) }
  else
    { st with matching := jsSet st.matching mt ((jsGet st.matching mt).getD 0 + 1) }

/-- `addCard(id, matches)` from `SubBucket.ts`: drop `id` from `matching`;
no-op if already a member; otherwise insert with count 1 and walk `matches`.
(The `getD 0` defaults are never hit: the keys read are present.) -/
def addCard (s : SubBucketState) (id : Nat) (ms : List Nat) : SubBucketState :=
  let s0 : SubBucketState := { s with matching := jsDelete s.matching id }
  if jsHas s0.cards id then s0
  else
    let s1 : SubBucketState := { s0 with cards := jsSet s0.cards id 1 }
    ms.foldl (addCardStep id) s1

/-- One step of `removeCard`'s loop: pick the counter holding `mt`
(`cards` if member else `matching`), delete at count ≤ 1, else decrement.
A JS lookup miss (`undefined`) fails `<= 1` and stores `undefined - 1 = NaN`;
no theorem below reads `matching` after a removal, and the poisoned entry is
modelled with value 0. -/
def removeCardStep (st : SubBucketState) (mt : Nat) : SubBucketState :=
  if jsHas st.cards mt then
    match jsGet st.cards mt with
    | some v =>
      if v ≤ 1 then { st with cards := jsDelete st.cards mt }
      else { st with cards := jsSet st.cards mt (v - 1) }
    | none => st
  else
    match jsGet st.matching mt with
    | some v =>
      if v ≤ 1 then { st with matching := jsDelete st.matching mt }
      else { st with matching := jsSet st.matching mt (v - 1) }
    | none => { st with matching := jsSet st.matching mt 0 }

/-- `removeCard(id)` from `SubBucket.ts`, with the freshly recomputed match
list `getMatching(context, id)` passed in as `matches` (it is read from the
store, outside this state). The CardSubBucket reset and queue append touch
other entities only. -/
def removeCard (s : SubBucketState) (id : Nat) (ms : List Nat) : SubBucketState :=
  ms.foldl removeCardStep { s with cards := jsDelete s.cards id }

theorem removeCardStep_cards_length_le (st : SubBucketState) (mt : Nat) :
    (removeCardStep st mt).cards.length ≤ st.cards.length := by
  unfold removeCardStep
  by_cases h : jsHas st.cards mt
  · simp only [h, if_true]
    cases hv : jsGet st.cards mt with
    | none => simp
    | some v =>
      by_cases hle : v ≤ 1
      · simp only [hle, if_true]
        exact length_jsDelete_le st.cards mt
      · simp only [hle, if_false]
        exact Nat.le_of_eq (length_jsSet_of_has st.cards mt (v - 1) h)
  · simp only [h, if_false]
    cases hv : jsGet st.matching mt with
    | none => exact Nat.le_refl _
    | some v => by_cases hle : v ≤ 1 <;> simp [hle]

theorem removeCard_cards_length_le (s : SubBucketState) (id : Nat)
    (ms : List Nat) :
    (removeCard s id ms).cards.length ≤ (jsDelete s.cards id).length := by
  unfold removeCard
  generalize hst : ({ s with cards := jsDelete s.cards id } : SubBucketState) = st
  have hc : st.cards = jsDelete s.cards id := by rw [← hst]
  rw [← hc]
  clear hst hc
  induction ms generalizing st with
  | nil => exact Nat.le_refl _
  | cons mt rest ih =>
    exact Nat.le_trans (ih (removeCardStep st mt))
      (removeCardStep_cards_length_le st mt)

/-- Each `removeCard` of a present member strictly shrinks `cards`. -/
theorem removeCard_cards_length_lt (s : SubBucketState) (id : Nat)
    (ms : List Nat) (h : jsHas s.cards id = true) :
    (removeCard s id ms).cards.length < s.cards.length :=
  Nat.lt_of_le_of_lt (removeCard_cards_length_le s id ms)
    (length_jsDelete_lt_of_has s.cards id h)

/-- The scan in `resolveRemoves`: first member whose internal count fails
`SHOULD_MATCH(count, this.size)`. -/
def findViolation (s : SubBucketState) : Option Nat :=
  (s.cards.find? (fun e => !SHOULD_MATCH e.2 (size s))).map (·.1)

theorem findViolation_has (s : SubBucketState) (id : Nat)
    (h : findViolation s = some id) : jsHas s.cards id = true := by
  unfold findViolation at h
  cases hf : s.cards.find? (fun e => !SHOULD_MATCH e.2 (size s)) with
  | none => rw [hf] at h; simp at h
  | some e =>
    rw [hf] at h
    simp only [Option.map_some', Option.some.injEq] at h
    have hmem : e ∈ s.cards := List.mem_of_find?_eq_some hf
    have hm2 : (e.1, e.2) ∈ s.cards := by simpa using hmem
    have := jsHas_of_mem s.cards e.1 e.2 hm2
    rwa [h] at this

/-- `resolveRemoves()` from `SubBucket.ts`: remove the first violating
member and recurse, returning whether any card was removed.  `oracle id`
stands for the `getMatching` result fetched for the removed card. -/
def resolveRemoves (oracle : Nat → List Nat) (s : SubBucketState)
    (hasBeenRemove : Bool) : SubBucketState × Bool :=
  match hfv : findViolation s with
  | none => (s, hasBeenRemove)
  | some id => resolveRemoves oracle (removeCard s id (oracle id)) true
termination_by s.cards.length
decreasing_by
  exact removeCard_cards_length_lt s id (oracle id) (findViolation_has s id hfv)

theorem resolveRemoves_eq (oracle : Nat → List Nat) (s : SubBucketState)
    (b : Bool) :
    resolveRemoves oracle s b =
      match findViolation s with
      | none => (s, b)
      | some id => resolveRemoves oracle (removeCard s id (oracle id)) true := by
  rw [resolveRemoves.eq_def]
  cases hfv : findViolation s <;> rfl

theorem findViolation_eq_none (s : SubBucketState)
    (h : findViolation s = none) :
    ∀ c n, (c, n) ∈ s.cards → SHOULD_MATCH n (size s) = true := by
  intro c n hmem
  unfold findViolation at h
  rw [Option.map_eq_none'] at h
  have := List.find?_eq_none.mp h (c, n) hmem
  simpa using this

end SubBucket

namespace SubBucket

theorem resolveRemoves_post (oracle : Nat → List Nat) :
    ∀ (N : Nat) (s : SubBucketState) (b : Bool), s.cards.length ≤ N →
      ∀ c n, (c, n) ∈ (resolveRemoves oracle s b).1.cards →
        SHOULD_MATCH n (size (resolveRemoves oracle s b).1) = true := by
  intro N
  induction N with
  | zero =>
    intro s b hle c n hmem
    have hnil : s.cards = [] := List.length_eq_zero.mp (Nat.le_zero.mp hle)
    have hfv : findViolation s = none := by
      unfold findViolation; rw [hnil]; rfl
    rw [resolveRemoves_eq, hfv] at hmem ⊢
    exact findViolation_eq_none s hfv c n hmem
  | succ N ih =>
    intro s b hle c n hmem
    rw [resolveRemoves_eq] at hmem ⊢
    cases hfv : findViolation s with
    | none =>
      rw [hfv] at hmem
      exact findViolation_eq_none s hfv c n hmem
    | some id =>
      rw [hfv] at hmem
      have hlt := removeCard_cards_length_lt s id (oracle id) (findViolation_has s id hfv)
      exact ih (removeCard s id (oracle id)) true (by omega) c n hmem

end SubBucket

open SubBucket in
/-- Claim C1 (invariant P1): after the removal loop of `resolve`
(`resolveRemoves`), every remaining member `c` of a SubBucket satisfies
`SHOULD_MATCH(cards[c], |cards|)`, i.e. `cards[c] / |cards| > 0.5`; a member
violating it is removed, so the stabilized state holds no violating member.
This is quantified over every starting state and every `getMatching`
result the removals may observe (`oracle`). -/
theorem C1_resolveRemoves_establishes_P1 (oracle : Nat → List Nat)
    (s : SubBucketState) (b : Bool) (c n : Nat)
    (hmem : (c, n) ∈ (resolveRemoves oracle s b).1.cards) :
    SHOULD_MATCH n (size (resolveRemoves oracle s b).1) = true :=
  resolveRemoves_post oracle s.cards.length s b (Nat.le_refl _) c n hmem

/-- Witness for C1 at a concrete one-card bucket. -/
theorem C1_witness :
    ((1, 1) ∈ (SubBucket.resolveRemoves (fun _ => []) ⟨[(1, 1)], [], 1⟩ false).1.cards)
      ∧ SHOULD_MATCH 1
          (SubBucket.size (SubBucket.resolveRemoves (fun _ => []) ⟨[(1, 1)], [], 1⟩ false).1) = true := by
  have heq : SubBucket.resolveRemoves (fun _ => []) ⟨[(1, 1)], [], 1⟩ false
      = (⟨[(1, 1)], [], 1⟩, false) := by
    rw [SubBucket.resolveRemoves_eq]
    rfl
  have hmem : (1, 1) ∈ (SubBucket.resolveRemoves (fun _ => []) ⟨[(1, 1)], [], 1⟩ false).1.cards := by
    rw [heq]; exact List.mem_singleton.mpr rfl
  exact ⟨hmem, C1_resolveRemoves_establishes_P1 (fun _ => []) ⟨[(1, 1)], [], 1⟩ false 1 1 hmem⟩

open SubBucket in
/-- Claim C7: `resolveRemoves` terminates for every SubBucket state because
each recursive call is preceded by a `removeCard` of a present member, which
strictly decreases `|cards|` (the decrement loop never grows `cards`).  The
definition of `resolveRemoves` above is accepted by well-founded recursion
on exactly this measure. -/
theorem C7_removeCard_strictly_decreases (s : SubBucketState) (id : Nat)
    (ms : List Nat) (h : id ∈ members s) :
    size (removeCard s id ms) < size s := by
  obtain ⟨⟨c, n⟩, hcn, hfst⟩ := List.mem_map.mp h
  have : (id, n) ∈ s.cards := by
    simpa [show c = id from hfst] using hcn
  exact removeCard_cards_length_lt s id ms (jsHas_of_mem s.cards id n this)

/-- Witness for C7 on a two-card bucket. -/
theorem C7_witness :
    (3 ∈ SubBucket.members ⟨[(3, 2), (5, 1)], [], 3⟩)
      ∧ SubBucket.size (SubBucket.removeCard ⟨[(3, 2), (5, 1)], [], 3⟩ 3 [5])
          < SubBucket.size ⟨[(3, 2), (5, 1)], [], 3⟩ :=
  ⟨by decide, C7_removeCard_strictly_decreases ⟨[(3, 2), (5, 1)], [], 3⟩ 3 [5] (by decide)⟩

namespace SubBucket

/-- Invariant of `addCard`'s loop over the remaining match list `rest`,
starting from an intermediate state `t` in which the new card `id` is
already present with count `j` and membership of every pending match agrees
with the original `s.cards`. -/
theorem addCard_fold (s : SubBucketState) (id : Nat) :
    ∀ (rest : List Nat) (t : SubBucketState) (j : Nat),
      jsGet t.cards id = some j →
      (∀ m ∈ rest, jsHas t.cards m = jsHas s.cards m) →
      rest.Nodup → id ∉ rest →
      (jsGet (rest.foldl (addCardStep id) t).cards id
          = some (j + (rest.filter (fun m => jsHas s.cards m)).length))
      ∧ (∀ m ∈ rest, jsHas s.cards m = true →
          jsGet (rest.foldl (addCardStep id) t).cards m
            = some ((jsGet t.cards m).getD 0 + 1))
      ∧ (∀ m ∈ rest, jsHas s.cards m = false →
          jsGet (rest.foldl (addCardStep id) t).matching m
            = some ((jsGet t.matching m).getD 0 + 1))
      ∧ (∀ k, k ∉ rest → k ≠ id →
          jsGet (rest.foldl (addCardStep id) t).cards k = jsGet t.cards k)
      ∧ (∀ k, k ∉ rest →
          jsGet (rest.foldl (addCardStep id) t).matching k = jsGet t.matching k) := by
  intro rest
  induction rest with
  | nil =>
    intro t j h1 h2 h3 h4
    exact ⟨by simpa using h1, by simp, by simp, fun k _ _ => rfl, fun k _ => rfl⟩
  | cons mt rest ih =>
    intro t j h1 h2 h3 h4
    have hmtid : mt ≠ id := by
      intro h; exact h4 (by rw [← h]; exact List.mem_cons_self mt rest)
    have hidrest : id ∉ rest := fun h => h4 (List.mem_cons_of_mem _ h)
    have hmtrest : mt ∉ rest := (List.nodup_cons.mp h3).1
    have hrestnd : rest.Nodup := (List.nodup_cons.mp h3).2
    have hm2 : jsHas t.cards mt = jsHas s.cards mt :=
      h2 mt (List.mem_cons_self mt rest)
    rw [List.foldl_cons]
    by_cases hm : jsHas s.cards mt = true
    · -- `mt` is already a member: both internal counts are bumped
      have htc : jsHas t.cards mt = true := hm2.trans hm
      have hget : jsGet (jsSet t.cards id (j + 1)) mt = jsGet t.cards mt := by
        rw [jsGet_jsSet, if_neg hmtid]
      have hstep : addCardStep id t mt =
          { t with cards := (jsSet (jsSet t.cards id (j + 1)) mt
              ((jsGet t.cards mt).getD 0 + 1)) } := by
        unfold addCardStep
        rw [if_pos htc]
        simp only [h1, Option.getD_some, hget]
      rw [hstep]
      set w := (jsGet t.cards mt).getD 0 + 1 with hw
      set A := jsSet t.cards id (j + 1) with hA
      set t1 : SubBucketState := { t with cards := jsSet A mt w } with ht1
      have f1 : jsGet t1.cards id = some (j + 1) := by
        show jsGet (jsSet A mt w) id = some (j + 1)
        rw [jsGet_jsSet, if_neg (Ne.symm hmtid), hA, jsGet_jsSet, if_pos rfl]
      have f2 : ∀ m ∈ rest, jsHas t1.cards m = jsHas s.cards m := by
        intro m hmr
        have hmne : m ≠ mt := fun h => hmtrest (h ▸ hmr)
        have hmid : m ≠ id := fun h => hidrest (h ▸ hmr)
        show jsHas (jsSet A mt w) m = _
        rw [jsHas_jsSet, decide_eq_false hmne, Bool.false_or, hA, jsHas_jsSet,
          decide_eq_false hmid, Bool.false_or]
        exact h2 m (List.mem_cons_of_mem _ hmr)
      obtain ⟨g1, g2, g3, g4, g5⟩ := ih t1 (j + 1) f1 f2 hrestnd hidrest
      refine ⟨?_, ?_, ?_, ?_, ?_⟩
      · rw [g1, List.filter_cons, if_pos (by simpa using hm)]
        simp only [List.length_cons]
        congr 1
        omega
      · intro m hmm hmtrue
        rcases List.mem_cons.mp hmm with h | h
        · have hmrest : m ∉ rest := by rw [h]; exact hmtrest
          have hmid : m ≠ id := by rw [h]; exact hmtid
          rw [g4 m hmrest hmid]
          show jsGet (jsSet A mt w) m = _
          rw [jsGet_jsSet, if_pos h, hw, h]
        · have hmne : m ≠ mt := fun hh => hmtrest (hh ▸ h)
          have hmid : m ≠ id := fun hh => hidrest (hh ▸ h)
          rw [g2 m h hmtrue]
          show some ((jsGet (jsSet A mt w) m).getD 0 + 1) = _
          rw [jsGet_jsSet, if_neg hmne, hA, jsGet_jsSet, if_neg hmid]
      · intro m hmm hmfalse
        rcases List.mem_cons.mp hmm with h | h
        · rw [h] at hmfalse
          rw [hmfalse] at hm
          exact absurd hm (by simp)
        · exact g3 m h hmfalse
      · intro k hk hkid
        have hkmt : k ≠ mt := fun hh => hk (hh ▸ List.mem_cons_self mt rest)
        have hkrest : k ∉ rest := fun hh => hk (List.mem_cons_of_mem _ hh)
        rw [g4 k hkrest hkid]
        show jsGet (jsSet A mt w) k = _
        rw [jsGet_jsSet, if_neg hkmt, hA, jsGet_jsSet, if_neg hkid]
      · intro k hk
        have hkrest : k ∉ rest := fun hh => hk (List.mem_cons_of_mem _ hh)
        exact g5 k hkrest
    · -- `mt` is not a member: its external count is bumped
      have hmF : jsHas s.cards mt = false := by
        cases h : jsHas s.cards mt with
        | false => rfl
        | true => exact absurd h hm
      have htc : jsHas t.cards mt = false := hm2.trans hmF
      have hstep : addCardStep id t mt =
          { t with matching := (jsSet t.matching mt
              ((jsGet t.matching mt).getD 0 + 1)) } := by
        unfold addCardStep
        rw [if_neg (by rw [htc]; exact Bool.false_ne_true)]
      rw [hstep]
      set w := (jsGet t.matching mt).getD 0 + 1 with hw
      set t1 : SubBucketState := { t with matching := jsSet t.matching mt w } with ht1
      have f1 : jsGet t1.cards id = some j := h1
      have f2 : ∀ m ∈ rest, jsHas t1.cards m = jsHas s.cards m := by
        intro m hmr
        exact h2 m (List.mem_cons_of_mem _ hmr)
      obtain ⟨g1, g2, g3, g4, g5⟩ := ih t1 j f1 f2 hrestnd hidrest
      refine ⟨?_, ?_, ?_, ?_, ?_⟩
      · rw [g1, List.filter_cons, if_neg (by simp [hmF])]
      · intro m hmm hmtrue
        rcases List.mem_cons.mp hmm with h | h
        · rw [h] at hmtrue
          rw [hmtrue] at hmF
          exact absurd hmF (by simp)
        · exact g2 m h hmtrue
      · intro m hmm hmfalse
        rcases List.mem_cons.mp hmm with h | h
        · have hmrest : m ∉ rest := by rw [h]; exact hmtrest
          rw [g5 m hmrest]
          show jsGet (jsSet t.matching mt w) m = _
          rw [jsGet_jsSet, if_pos h, hw, h]
        · have hmne : m ≠ mt := fun hh => hmtrest (hh ▸ h)
          rw [g3 m h hmfalse]
          show some ((jsGet (jsSet t.matching mt w) m).getD 0 + 1) = _
          rw [jsGet_jsSet, if_neg hmne]
      · intro k hk hkid
        have hkrest : k ∉ rest := fun hh => hk (List.mem_cons_of_mem _ hh)
        exact g4 k hkrest hkid
      · intro k hk
        have hkmt : k ≠ mt := fun hh => hk (hh ▸ List.mem_cons_self mt rest)
        have hkrest : k ∉ rest := fun hh => hk (List.mem_cons_of_mem _ hh)
        rw [g5 k hkrest]
        show jsGet (jsSet t.matching mt w) k = _
        rw [jsGet_jsSet, if_neg hkmt]

end SubBucket

open SubBucket in
/-- Claim C5: for `id` not already a member, `addCard(id, externalMatches)`
sets `cards[id] = 1 + |externalMatches ∩ cards|`, bumps `cards[m]` by one
for every match `m` that was already a member, bumps `matching[m]` by one
(default 0) for every match that was not, and deletes `id` from `matching`.
Quantified over duplicate-free match lists not containing `id` itself,
which is what `getMatching` produces. -/
theorem C5_addCard_counts (s : SubBucketState) (id : Nat) (ms : List Nat)
    (hid : jsHas s.cards id = false) (hidms : id ∉ ms) (hnd : ms.Nodup) :
    jsGet (addCard s id ms).cards id
        = some (1 + (ms.filter (fun m => jsHas s.cards m)).length)
    ∧ (∀ m ∈ ms, jsHas s.cards m = true →
        jsGet (addCard s id ms).cards m = some ((jsGet s.cards m).getD 0 + 1))
    ∧ (∀ m ∈ ms, jsHas s.cards m = false →
        jsGet (addCard s id ms).matching m = some ((jsGet s.matching m).getD 0 + 1))
    ∧ jsGet (addCard s id ms).matching id = none := by
  have hAdd : addCard s id ms
      = ms.foldl (addCardStep id)
          ⟨jsSet s.cards id 1, jsDelete s.matching id, s.bucketSetId⟩ := by
    unfold addCard
    rw [if_neg (by show ¬(jsHas s.cards id = true); rw [hid]; exact Bool.false_ne_true)]
  set s1 : SubBucketState := ⟨jsSet s.cards id 1, jsDelete s.matching id, s.bucketSetId⟩ with hs1
  have h1 : jsGet s1.cards id = some 1 := by
    show jsGet (jsSet s.cards id 1) id = some 1
    rw [jsGet_jsSet, if_pos rfl]
  have h2 : ∀ m ∈ ms, jsHas s1.cards m = jsHas s.cards m := by
    intro m hmr
    have hmid : m ≠ id := fun hh => hidms (hh ▸ hmr)
    show jsHas (jsSet s.cards id 1) m = _
    rw [jsHas_jsSet, decide_eq_false hmid, Bool.false_or]
  obtain ⟨g1, g2, g3, g4, g5⟩ := addCard_fold s id ms s1 1 h1 h2 hnd hidms
  rw [hAdd]
  refine ⟨g1, ?_, ?_, ?_⟩
  · intro m hmm hmtrue
    have hmid : m ≠ id := fun hh => hidms (hh ▸ hmm)
    rw [g2 m hmm hmtrue]
    show some ((jsGet (jsSet s.cards id 1) m).getD 0 + 1) = _
    rw [jsGet_jsSet, if_neg hmid]
  · intro m hmm hmfalse
    have hmid : m ≠ id := fun hh => hidms (hh ▸ hmm)
    rw [g3 m hmm hmfalse]
    show some ((jsGet (jsDelete s.matching id) m).getD 0 + 1) = _
    rw [jsGet_jsDelete_ne s.matching id m hmid]
  · rw [g5 id hidms]
    show jsGet (jsDelete s.matching id) id = none
    exact jsGet_jsDelete_self s.matching id

/-- Witness for C5: add card 9 with matches `[2, 7]` to the bucket
`{cards: {2 ↦ 1}, matching: {7 ↦ 3}}`. -/
theorem C5_witness :
    jsHas ([(2, 1)] : List (Nat × Nat)) 9 = false
    ∧ ((9 : Nat) ∉ ([2, 7] : List Nat))
    ∧ ([2, 7] : List Nat).Nodup
    ∧ jsGet (SubBucket.addCard ⟨[(2, 1)], [(7, 3)], 2⟩ 9 [2, 7]).cards 9 = some 2 :=
  ⟨by decide, by decide, by decide,
    (C5_addCard_counts ⟨[(2, 1)], [(7, 3)], 2⟩ 9 [2, 7] (by decide) (by decide)
      (by decide)).1⟩

/-!
Matcher (`duplicate.ts` / `index.ts`): positional-overlap test between the
queried card (`a` side) and a candidate card (`b` side).  JS numbers behave
as exact integers here; subtraction may go below zero, so the fields are
embedded as `Int`.
-/

def EDGE_TOLERANCE : Int := 1

def INSIDE_TOLERANCE : Int := 2

structure MatchInfo where
  cardLen : Int
  min : Int
  max : Int
  deriving Repr, DecidableEq

structure MatchPair where
  a : MatchInfo
  b : MatchInfo
  deriving Repr, DecidableEq

/-- `checkMatch` from `duplicate.ts`: either (almost) all of `x` lies inside
the match range, or the head of `x` aligns with the tail of `y`. -/
def checkMatch (x y : MatchInfo) : Bool :=
  let insideMatch := decide (3 < x.cardLen)
    && decide (x.cardLen - (x.max + 1 - x.min) ≤ INSIDE_TOLERANCE)
  insideMatch || (decide (x.min ≤ EDGE_TOLERANCE)
    && decide (y.cardLen - y.max ≤ EDGE_TOLERANCE))

/-- `isMatch`: `checkMatch` tried in both orders. -/
def isMatch (p : MatchPair) : Bool := checkMatch p.a p.b || checkMatch p.b p.a

/-- The accept loop closing `getMatching`: keep the ids whose match-pair
passes `isMatch`. -/
def acceptedMatches (infos : List (Nat × MatchPair)) : List Nat :=
  (infos.filter (fun e => isMatch e.2)).map (·.1)

/-- Claim C2: a candidate is accepted by the Matcher iff
`checkMatch(info.a, info.b) || checkMatch(info.b, info.a)` holds, where
`checkMatch(x, y)` is exactly
`(x.cardLen > 3 ∧ x.cardLen - (x.max + 1 - x.min) ≤ 2) ∨ (x.min ≤ 1 ∧ y.cardLen - y.max ≤ 1)`
with `INSIDE_TOLERANCE = 2` and `EDGE_TOLERANCE = 1`. -/
theorem C2_accept_iff_checkMatch (infos : List (Nat × MatchPair)) (id : Nat) :
    id ∈ acceptedMatches infos ↔
      ∃ p, (id, p) ∈ infos ∧
        (((3 < p.a.cardLen ∧ p.a.cardLen - (p.a.max + 1 - p.a.min) ≤ 2)
            ∨ (p.a.min ≤ 1 ∧ p.b.cardLen - p.b.max ≤ 1))
          ∨ ((3 < p.b.cardLen ∧ p.b.cardLen - (p.b.max + 1 - p.b.min) ≤ 2)
            ∨ (p.b.min ≤ 1 ∧ p.a.cardLen - p.a.max ≤ 1))) := by
  unfold acceptedMatches
  constructor
  · intro h
    obtain ⟨e, he, heid⟩ := List.mem_map.mp h
    obtain ⟨hein, hacc⟩ := List.mem_filter.mp he
    have hein2 : (e.1, e.2) ∈ infos := by simpa using hein
    rw [heid] at hein2
    refine ⟨e.2, hein2, ?_⟩
    have : isMatch e.2 = true := by simpa using hacc
    simpa [isMatch, checkMatch, EDGE_TOLERANCE, INSIDE_TOLERANCE,
      Bool.or_eq_true, Bool.and_eq_true, decide_eq_true_eq] using this
  · intro ⟨p, hin, hp⟩
    refine List.mem_map.mpr ⟨(id, p), List.mem_filter.mpr ⟨hin, ?_⟩, rfl⟩
    simpa [isMatch, checkMatch, EDGE_TOLERANCE, INSIDE_TOLERANCE,
      Bool.or_eq_true, Bool.and_eq_true, decide_eq_true_eq] using hp

/-!
The matchInfo pass of `getMatching`: the double loop over
`sentenceEntities[aIndex].matches` scans occurrences
`(aIndex, matchId, bIndex)` in order of ascending `aIndex`; within one
sentence entity the occurrences keep their stored order.
-/

/-- The occurrence stream of the double loop, starting at sentence index
`i`: every `(matchId, bIndex)` entry of sentence `i` first, then the later
sentences. -/
def occTriplesFrom (i : Nat) : List (List (Nat × Nat)) → List (Nat × Nat × Nat)
  | [] => []
  | ms :: rest => ms.map (fun mb => (i, mb.1, mb.2)) ++ occTriplesFrom (i + 1) rest

/-- All occurrences `(aIndex, matchId, bIndex)` scanned by `getMatching`. -/
def occTriples (ents : List (List (Nat × Nat))) : List (Nat × Nat × Nat) :=
  occTriplesFrom 0 ents

/-- The body of the double loop of `getMatching`: skip the queried card
itself; create the entry at a candidate's first occurrence; at every later
occurrence only overwrite the two `max` fields. -/
def matchInfoStep (cardId aLen : Nat) (cardLens : Nat → Nat)
    (m : List (Nat × MatchPair)) (occ : Nat × Nat × Nat) : List (Nat × MatchPair) :=
  if occ.2.1 = cardId then m
  else
    match jsGet m occ.2.1 with
    | none =>
        jsSet m occ.2.1
          ⟨⟨(aLen : Int), (occ.1 : Int), (occ.1 : Int)⟩,
            ⟨(cardLens occ.2.1 : Int), (occ.2.2 : Int), (occ.2.2 : Int)⟩⟩
    | some p =>
        jsSet m occ.2.1
          ⟨⟨p.a.cardLen, p.a.min, (occ.1 : Int)⟩,
            ⟨p.b.cardLen, p.b.min, (occ.2.2 : Int)⟩⟩

/-- The `matchInfo` record built by `getMatching`; `a.cardLen` is the
number of fetched sentence entities. -/
def buildMatchInfo (cardId : Nat) (cardLens : Nat → Nat)
    (ents : List (List (Nat × Nat))) : List (Nat × MatchPair) :=
  (occTriples ents).foldl (matchInfoStep cardId ents.length cardLens) []

/-- What the loop does to one candidate's entry, replayed over just that
candidate's occurrence stream. -/
def combineOccs (aLen : Nat) (cardLens : Nat → Nat) (mid : Nat) :
    Option MatchPair → List (Nat × Nat × Nat) → Option MatchPair
  | o, [] => o
  | none, occ :: os =>
      combineOccs aLen cardLens mid
        (some ⟨⟨(aLen : Int), (occ.1 : Int), (occ.1 : Int)⟩,
          ⟨(cardLens mid : Int), (occ.2.2 : Int), (occ.2.2 : Int)⟩⟩) os
  | some p, occ :: os =>
      combineOccs aLen cardLens mid
        (some ⟨⟨p.a.cardLen, p.a.min, (occ.1 : Int)⟩,
          ⟨p.b.cardLen, p.b.min, (occ.2.2 : Int)⟩⟩) os

/-- Last element of a list, with a default for the empty list. -/
def lastD : List β → β → β
  | [], d => d
  | x :: xs, _ => lastD xs x

theorem buildMatchInfo_fold (cardId aLen : Nat) (cardLens : Nat → Nat)
    (mid : Nat) (hmid : mid ≠ cardId) :
    ∀ (L : List (Nat × Nat × Nat)) (m : List (Nat × MatchPair)),
      jsGet (L.foldl (matchInfoStep cardId aLen cardLens) m) mid
        = combineOccs aLen cardLens mid (jsGet m mid)
            (L.filter (fun o => o.2.1 = mid)) := by
  intro L
  induction L with
  | nil =>
    intro m
    rw [List.foldl_nil, List.filter_nil]
    cases jsGet m mid <;> rfl
  | cons occ L ih =>
    intro m
    obtain ⟨ai, omid, bi⟩ := occ
    rw [List.foldl_cons, List.filter_cons]
    by_cases hc : omid = cardId
    · have hne : ¬(omid = mid) := fun h => hmid (h.symm.trans hc)
      have hstep : matchInfoStep cardId aLen cardLens m (ai, omid, bi) = m := by
        unfold matchInfoStep
        exact if_pos hc
      rw [hstep, ih m, if_neg (by simpa using hne)]
    · by_cases hm : omid = mid
      · subst hm
        rw [if_pos (by simp)]
        cases hg : jsGet m omid with
        | none =>
          have hstep : matchInfoStep cardId aLen cardLens m (ai, omid, bi)
              = jsSet m omid ⟨⟨(aLen : Int), (ai : Int), (ai : Int)⟩,
                  ⟨(cardLens omid : Int), (bi : Int), (bi : Int)⟩⟩ := by
            unfold matchInfoStep
            rw [if_neg hc, hg]
          rw [hstep, ih, jsGet_jsSet, if_pos rfl]
          rfl
        | some p =>
          have hstep : matchInfoStep cardId aLen cardLens m (ai, omid, bi)
              = jsSet m omid ⟨⟨p.a.cardLen, p.a.min, (ai : Int)⟩,
                  ⟨p.b.cardLen, p.b.min, (bi : Int)⟩⟩ := by
            unfold matchInfoStep
            rw [if_neg hc, hg]
          rw [hstep, ih, jsGet_jsSet, if_pos rfl]
          rfl
      · have hmne : ¬(mid = omid) := fun h => hm h.symm
        rw [if_neg (by simpa using hm)]
        cases hg : jsGet m omid with
        | none =>
          have hstep : matchInfoStep cardId aLen cardLens m (ai, omid, bi)
              = jsSet m omid ⟨⟨(aLen : Int), (ai : Int), (ai : Int)⟩,
                  ⟨(cardLens omid : Int), (bi : Int), (bi : Int)⟩⟩ := by
            unfold matchInfoStep
            rw [if_neg hc, hg]
          rw [hstep, ih, jsGet_jsSet, if_neg hmne]
        | some p =>
          have hstep : matchInfoStep cardId aLen cardLens m (ai, omid, bi)
              = jsSet m omid ⟨⟨p.a.cardLen, p.a.min, (ai : Int)⟩,
                  ⟨p.b.cardLen, p.b.min, (bi : Int)⟩⟩ := by
            unfold matchInfoStep
            rw [if_neg hc, hg]
          rw [hstep, ih, jsGet_jsSet, if_neg hmne]

theorem combineOccs_some_cons (aLen : Nat) (cardLens : Nat → Nat) (mid : Nat) :
    ∀ (os : List (Nat × Nat × Nat)) (occ : Nat × Nat × Nat) (p : MatchPair),
      combineOccs aLen cardLens mid (some p) (occ :: os)
        = some ⟨⟨p.a.cardLen, p.a.min, ((lastD os occ).1 : Int)⟩,
            ⟨p.b.cardLen, p.b.min, ((lastD os occ).2.2 : Int)⟩⟩ := by
  intro os
  induction os with
  | nil => intro occ p; rfl
  | cons c os ih =>
    intro occ p
    rw [show combineOccs aLen cardLens mid (some p) (occ :: c :: os)
        = combineOccs aLen cardLens mid
            (some ⟨⟨p.a.cardLen, p.a.min, (occ.1 : Int)⟩,
              ⟨p.b.cardLen, p.b.min, (occ.2.2 : Int)⟩⟩) (c :: os) from rfl, ih]
    rfl

theorem combineOccs_none_cons (aLen : Nat) (cardLens : Nat → Nat) (mid : Nat)
    (occ0 : Nat × Nat × Nat) (os : List (Nat × Nat × Nat)) :
    combineOccs aLen cardLens mid none (occ0 :: os)
      = some ⟨⟨(aLen : Int), (occ0.1 : Int), ((lastD os occ0).1 : Int)⟩,
          ⟨(cardLens mid : Int), (occ0.2.2 : Int), ((lastD os occ0).2.2 : Int)⟩⟩ := by
  cases os with
  | nil => rfl
  | cons c os =>
    rw [show combineOccs aLen cardLens mid none (occ0 :: c :: os)
        = combineOccs aLen cardLens mid
            (some ⟨⟨(aLen : Int), (occ0.1 : Int), (occ0.1 : Int)⟩,
              ⟨(cardLens mid : Int), (occ0.2.2 : Int), (occ0.2.2 : Int)⟩⟩)
            (c :: os) from rfl, combineOccs_some_cons]
    rfl

theorem occTriplesFrom_ge (ents : List (List (Nat × Nat))) :
    ∀ (i : Nat) (o : Nat × Nat × Nat), o ∈ occTriplesFrom i ents → i ≤ o.1 := by
  induction ents with
  | nil => intro i o h; simp [occTriplesFrom] at h
  | cons ms rest ih =>
    intro i o h
    rw [occTriplesFrom] at h
    rcases List.mem_append.mp h with h | h
    · obtain ⟨mb, _, hmb⟩ := List.mem_map.mp h
      rw [← hmb]
    · exact Nat.le_of_succ_le (ih (i + 1) o h)

theorem occTriplesFrom_pairwise (ents : List (List (Nat × Nat))) :
    ∀ i : Nat, List.Pairwise (fun x y : Nat × Nat × Nat => x.1 ≤ y.1)
      (occTriplesFrom i ents) := by
  induction ents with
  | nil => intro i; exact List.Pairwise.nil
  | cons ms rest ih =>
    intro i
    rw [occTriplesFrom]
    apply List.pairwise_append.mpr
    refine ⟨?_, ih (i + 1), ?_⟩
    · induction ms with
      | nil => exact List.Pairwise.nil
      | cons x xs ihx =>
        rw [List.map_cons]
        refine List.Pairwise.cons ?_ ihx
        intro y hy
        obtain ⟨mb, _, hmb⟩ := List.mem_map.mp hy
        rw [← hmb]
    · intro x hx y hy
      obtain ⟨mb, _, hmb⟩ := List.mem_map.mp hx
      have h1 : i + 1 ≤ y.1 := occTriplesFrom_ge rest (i + 1) y hy
      rw [← hmb]
      exact Nat.le_of_succ_le h1

theorem pairwise_head_le (os : List (Nat × Nat × Nat)) (d : Nat × Nat × Nat)
    (hp : List.Pairwise (fun x y : Nat × Nat × Nat => x.1 ≤ y.1) (d :: os)) :
    ∀ o ∈ d :: os, d.1 ≤ o.1 := by
  intro o ho
  rcases List.mem_cons.mp ho with h | h
  · rw [h]
  · exact (List.pairwise_cons.mp hp).1 o h

theorem lastD_mem (os : List (Nat × Nat × Nat)) :
    ∀ d, lastD os d = d ∨ lastD os d ∈ os := by
  induction os with
  | nil => intro d; exact Or.inl rfl
  | cons x xs ih =>
    intro d
    rw [show lastD (x :: xs) d = lastD xs x from rfl]
    rcases ih x with h | h
    · exact Or.inr (by rw [h]; exact List.mem_cons_self x xs)
    · exact Or.inr (List.mem_cons_of_mem x h)

theorem pairwise_le_lastD (os : List (Nat × Nat × Nat)) :
    ∀ (d : Nat × Nat × Nat),
      List.Pairwise (fun x y : Nat × Nat × Nat => x.1 ≤ y.1) (d :: os) →
      ∀ o ∈ d :: os, o.1 ≤ (lastD os d).1 := by
  induction os with
  | nil =>
    intro d _ o ho
    rw [List.mem_singleton.mp ho]
    exact Nat.le_refl _
  | cons c os ih =>
    intro d hp o ho
    obtain ⟨hd, hp2⟩ := List.pairwise_cons.mp hp
    rw [show lastD (c :: os) d = lastD os c from rfl]
    rcases List.mem_cons.mp ho with h | h
    · rcases lastD_mem os c with hl | hl
      · rw [h, hl]
        exact hd c (List.mem_cons_self c os)
      · rw [h]
        exact hd (lastD os c) (List.mem_cons_of_mem c hl)
    · exact ih c hp2 o h

/-- Claim C3 is false as stated: `b.min`/`b.max` are not the minimum and
maximum sentence position of the candidate.  Card 7 co-occurs at positions 5
(seen first) and 2 (seen last) of itself, yet the built entry has
`b.min = 5`, above the occurrence at position 2. -/
theorem C3_counterexample :
    ∃ p, jsGet (buildMatchInfo 1 (fun _ => 6) [[(7, 5)], [(7, 2)]]) 7 = some p
      ∧ (1, 7, 2) ∈ occTriples [[(7, 5)], [(7, 2)]]
      ∧ (2 : Int) < p.b.min ∧ p.b.max < (5 : Int) := by
  refine ⟨⟨⟨2, 0, 1⟩, ⟨6, 5, 2⟩⟩, ?_, ?_, ?_, ?_⟩ <;> decide

/-- Claim C3 (amended): for a candidate `mid ≠ cardId` whose occurrence
stream (in scan order) is `occ0 :: os`, the built entry is
`a = {cardLen = |sentences|, min = first aIndex, max = last aIndex}` and
`b = {cardLen = CardLength(mid), min = first bIndex, max = last bIndex}`;
since the scan is by ascending sentence index, `a.min` and `a.max` are
the true minimum and maximum index-in-this-card positions (the bounds
conjuncts), while `b.min` and `b.max` are only the first and last seen
sentence positions within `mid`, not the minimum and maximum. -/
theorem C3_matchInfo_first_last (cardId : Nat) (cardLens : Nat → Nat)
    (ents : List (List (Nat × Nat))) (mid : Nat) (hmid : mid ≠ cardId)
    (occ0 : Nat × Nat × Nat) (os : List (Nat × Nat × Nat))
    (hos : (occTriples ents).filter (fun o => o.2.1 = mid) = occ0 :: os) :
    jsGet (buildMatchInfo cardId cardLens ents) mid
        = some ⟨⟨(ents.length : Int), (occ0.1 : Int), ((lastD os occ0).1 : Int)⟩,
            ⟨(cardLens mid : Int), (occ0.2.2 : Int), ((lastD os occ0).2.2 : Int)⟩⟩
      ∧ (∀ o ∈ occ0 :: os, occ0.1 ≤ o.1)
      ∧ (∀ o ∈ occ0 :: os, o.1 ≤ (lastD os occ0).1) := by
  have hfold := buildMatchInfo_fold cardId ents.length cardLens mid hmid
    (occTriples ents) []
  rw [hos] at hfold
  have hp : List.Pairwise (fun x y : Nat × Nat × Nat => x.1 ≤ y.1) (occ0 :: os) := by
    rw [← hos]
    exact List.Pairwise.sublist (List.filter_sublist _) (occTriplesFrom_pairwise ents 0)
  refine ⟨?_, pairwise_head_le os occ0 hp, pairwise_le_lastD os occ0 hp⟩
  rw [show buildMatchInfo cardId cardLens ents
      = (occTriples ents).foldl (matchInfoStep cardId ents.length cardLens) [] from rfl,
    hfold]
  exact combineOccs_none_cons ents.length cardLens mid occ0 os

/-- Witness for the amended C3 at the counterexample input. -/
theorem C3_witness :
    ((7 : Nat) ≠ 1)
    ∧ (occTriples [[(7, 5)], [(7, 2)]]).filter (fun o => o.2.1 = 7)
        = [(0, 7, 5), (1, 7, 2)]
    ∧ jsGet (buildMatchInfo 1 (fun _ => 6) [[(7, 5)], [(7, 2)]]) 7
        = some ⟨⟨2, 0, 1⟩, ⟨6, 5, 2⟩⟩ :=
  ⟨by decide, by decide,
    (C3_matchInfo_first_last 1 (fun _ => 6) [[(7, 5)], [(7, 2)]] 7 (by decide)
      (0, 7, 5) [(1, 7, 2)] (by decide)).1⟩

/-!
BucketSet (`BucketSet.ts`).  A "CardSet" view aggregates a collection of
SubBuckets: `members` is the lodash `union` of the member lists, `matching`
sums the per-card external counts, `size = |members|`.
-/

/-- Deduplicate keeping each element's first occurrence (lodash `uniq`). -/
def uniqAux (seen : List Nat) : List Nat → List Nat
  | [] => []
  | x :: xs => if x ∈ seen then uniqAux seen xs else x :: uniqAux (x :: seen) xs

/-- lodash `union(...lists)`: concatenation with first occurrences kept. -/
def lodashUnion (ls : List (List Nat)) : List Nat := uniqAux [] ls.flatten

structure CardSetView where
  size : Nat
  members : List Nat
  matching : List (Nat × Nat)
  deriving Repr, DecidableEq

/-- `cardSet(subBuckets)` from `BucketSet.ts`. -/
def cardSet (subBuckets : List SubBucketState) : CardSetView :=
  let matching := subBuckets.foldl
    (fun acc cur => cur.matching.foldl
      (fun a e => jsSet a e.1 ((jsGet a e.1).getD 0 + e.2)) acc) []
  let members := lodashUnion (subBuckets.map SubBucket.members)
  ⟨members.length, members, matching⟩

/-- `checkAdd(a, b)` from `BucketSet.ts`: count the members of `b` that the
aggregate `a` matches strongly enough, then re-apply the threshold to the
count (a JS lookup miss makes the inner `SHOULD_MERGE` false). -/
def checkAdd (a b : CardSetView) : Bool :=
  SHOULD_MERGE
    ((b.members.filter (fun cardId => SHOULD_MERGE_OPT (jsGet a.matching cardId) a.size)).length)
    b.size

/-- `shouldMerge(a, b)` from `BucketSet.ts`. -/
def shouldMerge (a b : List SubBucketState) : Bool := checkAdd (cardSet a) (cardSet b)

namespace BucketSet

/-- The scan of `resolve()`: index of the first member SubBucket that, set
against the union of the remaining members, fails
`shouldMerge(remaining, [member])`. -/
def findEvict (subBuckets : List SubBucketState) : Option Nat :=
  (List.range subBuckets.length).find? (fun i =>
    !shouldMerge (subBuckets.eraseIdx i) [subBuckets.getD i ⟨[], [], 0⟩])

theorem findEvict_lt (subBuckets : List SubBucketState) (i : Nat)
    (h : findEvict subBuckets = some i) : i < subBuckets.length := by
  unfold findEvict at h
  have := List.mem_of_find?_eq_some h
  exact List.mem_range.mp this

/-- Modelled from the spec: the Bool-returning `BucketSet.resolve()` of the
newest revision is not among the source files — only its caller, the newest
`SubBucket.resolve`, is.  Spec §4.5: "while `|subBucketIds| > 1`, scan
members; if any member, when considered against the union of the remaining
members, fails `shouldMerge(remainingAsCardSet, memberAsCardSet)`, evict it
via `removeSubBucket` and recurse.  Returns whether anything was removed."
Eviction is modelled by its effect on this BucketSet: dropping the member;
`shouldMerge`, `checkAdd` and `cardSet` are embedded from `BucketSet.ts`. -/
def resolve (subBuckets : List SubBucketState) (removed : Bool) :
    List SubBucketState × Bool :=
  if subBuckets.length ≤ 1 then (subBuckets, removed)
  else
    match hf : findEvict subBuckets with
    | none => (subBuckets, removed)
    | some i => resolve (subBuckets.eraseIdx i) true
termination_by subBuckets.length
decreasing_by
  have hi := findEvict_lt subBuckets i hf
  have hlen : (subBuckets.eraseIdx i).length + 1 = subBuckets.length :=
    List.length_eraseIdx_add_one hi
  omega

theorem resolve_eq (subBuckets : List SubBucketState) (removed : Bool) :
    resolve subBuckets removed =
      if subBuckets.length ≤ 1 then (subBuckets, removed)
      else
        match findEvict subBuckets with
        | none => (subBuckets, removed)
        | some i => resolve (subBuckets.eraseIdx i) true := by
  rw [resolve.eq_def]
  by_cases h : subBuckets.length ≤ 1
  · rw [if_pos h, if_pos h]
  · rw [if_neg h, if_neg h]
    cases hf : findEvict subBuckets <;> rfl

theorem resolve_spec :
    ∀ (N : Nat) (l : List SubBucketState) (r : Bool), l.length ≤ N →
      (resolve l r).1.length ≤ l.length
      ∧ (resolve l r).2 = (r || decide ((resolve l r).1.length < l.length)) := by
  intro N
  induction N with
  | zero =>
    intro l r hle
    have h1 : l.length ≤ 1 := Nat.le_trans hle (Nat.zero_le 1)
    rw [resolve_eq, if_pos h1]
    simp
  | succ N ih =>
    intro l r hle
    by_cases h1 : l.length ≤ 1
    · rw [resolve_eq, if_pos h1]
      simp
    · rw [resolve_eq, if_neg h1]
      cases hf : findEvict l with
      | none => simp
      | some i =>
        have hi := findEvict_lt l i hf
        have hlen : (l.eraseIdx i).length + 1 = l.length :=
          List.length_eraseIdx_add_one hi
        obtain ⟨ih1, ih2⟩ := ih (l.eraseIdx i) true (by omega)
        have hlt : (resolve (l.eraseIdx i) true).1.length < l.length := by omega
        refine ⟨?_, ?_⟩
        · show (resolve (l.eraseIdx i) true).1.length ≤ l.length
          omega
        · show (resolve (l.eraseIdx i) true).2
            = (r || decide ((resolve (l.eraseIdx i) true).1.length < l.length))
          rw [ih2]
          simp [hlt]

end BucketSet

/-- Claim C4: `BucketSet.resolve()` returns whether anything was removed:
the Bool is true iff at least one member SubBucket was evicted during the
call, i.e. iff the resulting membership is strictly smaller (each eviction
drops exactly one member and nothing is ever added).  The caller
(`SubBucket.resolve`) uses that Bool to widen its candidate set. -/
theorem C4_bucketSet_resolve_returns_removed (l : List SubBucketState) :
    (BucketSet.resolve l false).2 = true
      ↔ (BucketSet.resolve l false).1.length < l.length := by
  obtain ⟨h1, h2⟩ := BucketSet.resolve_spec l.length l false (Nat.le_refl _)
  rw [h2]
  simp

/-!
Persistence of BucketSets (`BucketSetRepository` in `BucketSet.ts`): the KV
value of `BS:<key>` is the set of SubBucket keys; `save` always deletes the
old key and skips the write for a set with at most one member
("Dont bother saving sigle member bucket sets"); loading an absent or empty
key reconstitutes the singleton `{key}`.
-/

/-- A KV-store command issued inside the transaction. -/
inductive KVOp where
  | del (key : Nat)
  | sAdd (key : Nat) (members : List Nat)
  deriving Repr, DecidableEq

structure BucketSetState where
  subBucketIds : List Nat
  key : Nat
  originalKey : Nat
  deriving Repr, DecidableEq

namespace BucketSet

/-- `createKey()`: `Math.min(...subBucketIds)`.  (`Math.min()` of an empty
spread is `Infinity`; a BucketSet is never constructed empty, and the stub
value 0 below is never used by a theorem.) -/
def createKey (subBucketIds : List Nat) : Nat :=
  match subBucketIds with
  | [] => 0
  | x :: xs => xs.foldl Nat.min x

/-- The constructor run by `fromRedis`: `key` and `originalKey` are both the
derived minimum. -/
def fromRedis (subBucketIds : List Nat) : BucketSetState :=
  ⟨subBucketIds, createKey subBucketIds, createKey subBucketIds⟩

/-- `BucketSetRepository.save`: delete the entity's old key, then persist
the id set only when it has more than one member. -/
def save (e : BucketSetState) : List KVOp :=
  KVOp.del e.originalKey ::
    (if e.subBucketIds.length ≤ 1 then [] else [KVOp.sAdd e.key e.subBucketIds])

/-- `BucketSetRepository.loadRedis`: `sMembers` of the key, falling back to
the singleton `{key}` when nothing is stored (`!subBuckets?.length`). -/
def loadRedis (store : Nat → List Nat) (key : Nat) : BucketSetState :=
  if (store key).length = 0 then fromRedis [key] else fromRedis (store key)

end BucketSet

/-- Claim C6: a BucketSet with at most one member is never persisted —
`save` emits nothing beyond deleting its old key — and loading a key absent
from the store reconstitutes the singleton BucketSet containing exactly
that key. -/
theorem C6_singleton_bucketSets_not_persisted (e : BucketSetState)
    (store : Nat → List Nat) (k : Nat) :
    (e.subBucketIds.length ≤ 1 → BucketSet.save e = [KVOp.del e.originalKey])
    ∧ (store k = [] → (BucketSet.loadRedis store k).subBucketIds = [k]) := by
  constructor
  · intro h
    unfold BucketSet.save
    rw [if_pos h]
  · intro h
    unfold BucketSet.loadRedis
    rw [h]
    rfl

/-- Witness for C6: a singleton BucketSet and an empty store. -/
theorem C6_witness :
    BucketSet.save ⟨[4], 4, 7⟩ = [KVOp.del 7]
    ∧ (BucketSet.loadRedis (fun _ => []) 9).subBucketIds = [9] :=
  ⟨(C6_singleton_bucketSets_not_persisted ⟨[4], 4, 7⟩ (fun _ => []) 9).1 (by decide),
    (C6_singleton_bucketSets_not_persisted ⟨[4], 4, 7⟩ (fun _ => []) 9).2 rfl⟩

/-!
SubBucket serialization (`SubBucket.ts`): the hash fields are the literal
strings `"bs"` (bucketSetId), `"c<cardId>"` (internal count) and
`"m<cardId>"` (external count), with decimal string values.  The field
names are embedded as an inductive whose constructors stand for those
strings (the encoding id ↦ "c" ++ decimal id is injective per prefix, and
`fromRedis` branches on the first character exactly as the constructors
do); the decimal value round-trip is exact. -/

inductive SBField where
  | bs
  | c (id : Nat)
  | m (id : Nat)
  deriving Repr, DecidableEq

namespace SubBucket

/-- `toRedis()` of the newest `SubBucket.ts`: the `bs` field, then one
`c<cardId>` field per member, then one `m<cardId>` field per external
match. -/
def toRedis (s : SubBucketState) : List (SBField × Nat) :=
  (SBField.bs, s.bucketSetId) ::
    (s.cards.map (fun e => (SBField.c e.1, e.2))
      ++ s.matching.map (fun e => (SBField.m e.1, e.2)))

/-- `fromRedis(obj, key)`: start from empty maps with `bucketSetId = key`,
then replay every hash field: `c` fields into `cards`, `m` fields into
`matching`, `bs` into `bucketSetId` (an unknown prefix throws; such a field
cannot be produced here). -/
def fromRedis (obj : List (SBField × Nat)) (key : Nat) : SubBucketState :=
  obj.foldl (fun st f =>
    match f.1 with
    | SBField.c id => { st with cards := jsSet st.cards id f.2 }
    | SBField.m id => { st with matching := jsSet st.matching id f.2 }
    | SBField.bs => { st with bucketSetId := f.2 }) ⟨[], [], key⟩

theorem jsSet_fresh (m : List (Nat × α)) (k : Nat) (v : α)
    (h : jsHas m k = false) : jsSet m k v = m ++ [(k, v)] := by
  induction m with
  | nil => rfl
  | cons e rest ih =>
    by_cases hek : e.1 = k
    · rw [jsHas, jsGet_cons, if_pos hek] at h
      simp at h
    · rw [jsHas, jsGet_cons, if_neg hek] at h
      have hstep : jsSet (e :: rest) k v = e :: jsSet rest k v := by
        rw [show jsSet (e :: rest) k v
            = if e.1 = k then (k, v) :: rest else e :: jsSet rest k v from rfl,
          if_neg hek]
      rw [hstep, ih h, List.cons_append]

theorem fromRedis_c_fold (cs : List (Nat × Nat)) :
    ∀ (st : SubBucketState),
      (cs.map (fun e => (SBField.c e.1, e.2))).foldl (fun st f =>
        match f.1 with
        | SBField.c id => { st with cards := jsSet st.cards id f.2 }
        | SBField.m id => { st with matching := jsSet st.matching id f.2 }
        | SBField.bs => { st with bucketSetId := f.2 }) st
      = { st with cards := cs.foldl (fun a e => jsSet a e.1 e.2) st.cards } := by
  induction cs with
  | nil => intro st; rfl
  | cons e cs ih =>
    intro st
    rw [List.map_cons, List.foldl_cons, List.foldl_cons]
    exact ih { st with cards := jsSet st.cards e.1 e.2 }

theorem fromRedis_m_fold (ms : List (Nat × Nat)) :
    ∀ (st : SubBucketState),
      (ms.map (fun e => (SBField.m e.1, e.2))).foldl (fun st f =>
        match f.1 with
        | SBField.c id => { st with cards := jsSet st.cards id f.2 }
        | SBField.m id => { st with matching := jsSet st.matching id f.2 }
        | SBField.bs => { st with bucketSetId := f.2 }) st
      = { st with matching := ms.foldl (fun a e => jsSet a e.1 e.2) st.matching } := by
  induction ms with
  | nil => intro st; rfl
  | cons e ms ih =>
    intro st
    rw [List.map_cons, List.foldl_cons, List.foldl_cons]
    exact ih { st with matching := jsSet st.matching e.1 e.2 }

theorem foldl_jsSet_of_nodup (entries : List (Nat × Nat)) :
    ∀ (acc : List (Nat × Nat)),
      (∀ e ∈ entries, jsHas acc e.1 = false) →
      (entries.map Prod.fst).Nodup →
      entries.foldl (fun a e => jsSet a e.1 e.2) acc = acc ++ entries := by
  induction entries with
  | nil => intro acc _ _; exact (List.append_nil acc).symm
  | cons e es ih =>
    intro acc hfresh hnd
    rw [List.foldl_cons,
      jsSet_fresh acc e.1 e.2 (hfresh e (List.mem_cons_self e es))]
    have hnd2 : (es.map Prod.fst).Nodup := by
      rw [List.map_cons] at hnd
      exact (List.nodup_cons.mp hnd).2
    have hkey : e.1 ∉ es.map Prod.fst := by
      rw [List.map_cons] at hnd
      exact (List.nodup_cons.mp hnd).1
    have hfresh2 : ∀ x ∈ es, jsHas (acc ++ [(e.1, e.2)]) x.1 = false := by
      intro x hx
      have hxk : ¬(x.1 = e.1) := fun hh =>
        hkey (hh ▸ List.mem_map_of_mem Prod.fst hx)
      have hxk2 : ¬(e.1 = x.1) := fun hh => hxk hh.symm
      have h1 : jsHas acc x.1 = false := hfresh x (List.mem_cons_of_mem e hx)
      unfold jsHas jsGet at h1 ⊢
      rw [List.find?_append]
      cases hfa : acc.find? (fun en => en.1 = x.1) with
      | some v =>
        rw [hfa] at h1
        simp at h1
      | none =>
        simp only [Option.none_or]
        have : ((e.1, e.2) :: []).find? (fun en => en.1 = x.1) = none := by
          rw [List.find?_cons_of_neg]
          · rfl
          · simpa using hxk2
        rw [this]
        rfl
    rw [ih (acc ++ [(e.1, e.2)]) hfresh2 hnd2, List.append_assoc]
    rfl

end SubBucket

/-- Claim C8 (round trip R1): deserializing the serialized form of a
SubBucket yields the same entity (modulo the in-memory `updated` flag):
`fromRedis(toRedis(b), key)` rebuilds the same `cards` map, the same
`matching` map and the same `bucketSetId`.  The key-uniqueness hypotheses
are the `Map` representation invariant. -/
theorem C8_subBucket_roundtrip (s : SubBucketState) (k : Nat)
    (hc : (s.cards.map Prod.fst).Nodup) (hm : (s.matching.map Prod.fst).Nodup) :
    SubBucket.fromRedis (SubBucket.toRedis s) k = s := by
  unfold SubBucket.toRedis SubBucket.fromRedis
  rw [List.foldl_cons, List.foldl_append, SubBucket.fromRedis_c_fold,
    SubBucket.fromRedis_m_fold,
    SubBucket.foldl_jsSet_of_nodup s.cards [] (fun e _ => rfl) hc,
    SubBucket.foldl_jsSet_of_nodup s.matching [] (fun e _ => rfl) hm]
  rfl

/-- Witness for C8 at a two-member SubBucket with one external match. -/
theorem C8_witness :
    (([(4, 2), (6, 1)] : List (Nat × Nat)).map Prod.fst).Nodup
    ∧ (([(9, 5)] : List (Nat × Nat)).map Prod.fst).Nodup
    ∧ SubBucket.fromRedis (SubBucket.toRedis ⟨[(4, 2), (6, 1)], [(9, 5)], 3⟩) 99
        = ⟨[(4, 2), (6, 1)], [(9, 5)], 3⟩ :=
  ⟨by decide, by decide,
    C8_subBucket_roundtrip ⟨[(4, 2), (6, 1)], [(9, 5)], 3⟩ 99 (by decide) (by decide)⟩

/-!
Sentence normalization (`getSentences` in `index.ts`):
`text.split(SENTENCE_REGEX)` with `SENTENCE_REGEX = /([.?!])+(?=\d*\s+[A-Z])/`,
then each fragment keeps only ASCII letters (`replace(/[^A-Z]/gi, '')`), is
lowercased, and fragments shorter than the cutoff are dropped.

JS `String.split` on a regex with a capturing group splices the group's
last capture — here the final punctuation character of the matched run —
into the result between the surrounding fragments.  A split match is a
maximal nonempty run of `.?!` whose lookahead `\d*\s+[A-Z]` holds right
after the run; a shorter run can never match instead, because the character
following it is again punctuation, failing the lookahead's `\s+`.
-/

def isTermPunct (c : Char) : Bool := c = '.' || c = '?' || c = '!'

def isAsciiDigit (c : Char) : Bool := decide ('0' ≤ c) && decide (c ≤ '9')

def isAsciiUpper (c : Char) : Bool := decide ('A' ≤ c) && decide (c ≤ 'Z')

/-- ASCII letters, the complement of the JS character class `[^A-Z]` with
the `i` flag. -/
def isAsciiAlpha (c : Char) : Bool :=
  (decide ('A' ≤ c) && decide (c ≤ 'Z')) || (decide ('a' ≤ c) && decide (c ≤ 'z'))

/-- The character class of the JS regex `\s`. -/
def isJsSpace (c : Char) : Bool :=
  c = ' ' || c = '\t' || c = '\n' || c = '\r' || c = '\u000b' || c = '\u000c'
    || c = '\u00a0' || c = '\u1680'
    || (decide ('\u2000' ≤ c) && decide (c ≤ '\u200a'))
    || c = '\u2028' || c = '\u2029' || c = '\u202f' || c = '\u205f'
    || c = '\u3000' || c = '\ufeff'

/-- The lookahead `(?=\d*\s+[A-Z])`: optional digits, at least one space,
then an ASCII capital. -/
def lookaheadOk (cs : List Char) : Bool :=
  let afterDigits := cs.dropWhile isAsciiDigit
  let ws := afterDigits.takeWhile isJsSpace
  let afterWs := afterDigits.dropWhile isJsSpace
  !ws.isEmpty &&
    match afterWs with
    | [] => false
    | c :: _ => isAsciiUpper c

/-- The scan of `text.split(SENTENCE_REGEX)`: `acc` holds the current
fragment reversed; at each maximal punctuation run whose lookahead holds,
emit the fragment and the spliced capture (the run's last character) and
restart after the run. -/
def splitGo : List Char → List Char → List (List Char)
  | acc, [] => [acc.reverse]
  | acc, ch :: cs =>
    if h : isTermPunct ch = true then
      let run := List.takeWhile isTermPunct (ch :: cs)
      let rest := List.dropWhile isTermPunct (ch :: cs)
      if lookaheadOk rest then acc.reverse :: [lastD run ch] :: splitGo [] rest
      else splitGo (run.reverse ++ acc) rest
    else splitGo (ch :: acc) cs
termination_by _ cs => cs.length
decreasing_by
  · rw [List.dropWhile_cons, if_pos h, List.length_cons]
    exact Nat.lt_succ_of_le (List.Sublist.length_le (List.dropWhile_sublist _))
  · rw [List.dropWhile_cons, if_pos h, List.length_cons]
    exact Nat.lt_succ_of_le (List.Sublist.length_le (List.dropWhile_sublist _))
  · exact Nat.lt_succ_self cs.length

/-- `el.replace(/[^A-Z]/gi, '').toLowerCase()`. -/
def normalizeFragment (frag : List Char) : List Char :=
  (frag.filter isAsciiAlpha).map Char.toLower

/-- `getSentences(text, cutoff)` from `index.ts`. -/
def getSentences (text : String) (cutoff : Nat) : List String :=
  (((splitGo [] text.toList).map normalizeFragment).filter
    (fun l => cutoff ≤ l.length)).map (fun l => String.mk l)

/-- The one error kind the matcher pipeline raises itself
(`Card with id ... does not exist`), the spec's MissingCard. -/
inductive DedupError where
  | missingCard (id : Nat)
  deriving Repr, DecidableEq

/-- `loadSentences` from `index.ts`.  The evidence store is a function
`cardId ↦ none` (no row) or `some fulltext` with a nullable fulltext; the
JS guard `!card?.fulltext` also treats an empty string as missing.  `!id`
short-circuits id 0 (not a real card id — cards are positive) to `[]`. -/
def loadSentences (store : Nat → Option (Option String)) (id : Nat) :
    Except DedupError (List String) :=
  if id = 0 then .ok []
  else
    match store id with
    | none => .error (.missingCard id)
    | some none => .error (.missingCard id)
    | some (some ft) =>
        if ft = "" then .error (.missingCard id)
        else .ok (getSentences ft 20)

/-- Claim C9: for every real (positive) cardId, sentence loading fails with
MissingCard exactly when the evidence store has no row or no (or empty)
fulltext for it; in every other case it returns the normalized sentences
without error — the failure is never converted into an empty result. -/
theorem C9_loadSentences_missingCard (store : Nat → Option (Option String))
    (id : Nat) (hid : 0 < id) :
    (∀ ft, store id = some (some ft) → ft ≠ "" →
        loadSentences store id = .ok (getSentences ft 20))
    ∧ (loadSentences store id = .error (DedupError.missingCard id)
        ↔ (store id = none ∨ store id = some none ∨ store id = some (some ""))) := by
  have hid0 : ¬(id = 0) := Nat.pos_iff_ne_zero.mp hid
  constructor
  · intro ft hft hne
    unfold loadSentences
    rw [if_neg hid0, hft]
    simp [hne]
  · unfold loadSentences
    rw [if_neg hid0]
    cases hst : store id with
    | none => simp
    | some row =>
      cases row with
      | none => simp
      | some ft =>
        by_cases hft : ft = ""
        · simp [hft]
        · simp [hft]

/-- Witness for C9: a store holding one card with fulltext "abc", queried
at id 5. -/
theorem C9_witness :
    (0 < 5)
    ∧ loadSentences (fun _ => some (some "abc")) 5 = .ok (getSentences "abc" 20) :=
  ⟨by decide,
    (C9_loadSentences_missingCard (fun _ => some (some "abc")) 5 (by decide)).1
      "abc" rfl (by decide)⟩

/-!
`processCard` (`duplicate.ts`): its result row for the downstream store.
-/

structure BucketUpdate where
  bucketId : Nat
  cardIds : List Nat
  deriving Repr, DecidableEq

structure Updates where
  updates : List BucketUpdate
  deletes : List Nat
  deriving Repr, DecidableEq

/-- `processCard(id, sentences)` from `duplicate.ts`.  The guard
`if (!sentences.length)` returns before `redis.executeIsolated` ever opens
a context, so no entity is read or written; the whole transactional body is
abstracted as `body`, and the `List KVOp` component records every KV
command a call performs. -/
def processCard
    (body : Nat → List String → Except DedupError (Updates × List KVOp))
    (id : Nat) (sentences : List String) :
    Except DedupError (Updates × List KVOp) :=
  if sentences.length = 0 then .ok (⟨[⟨id, [id]⟩], []⟩, [])
  else body id sentences

/-- Claim C10: for every cardId, `processCard` on an empty sentence list
returns exactly `{updates: [{bucketId: id, cardIds: [id]}], deletes: []}`
and performs no KV operation at all — whatever the transactional body would
do, it is never entered. -/
theorem C10_processCard_empty_sentences
    (body : Nat → List String → Except DedupError (Updates × List KVOp))
    (id : Nat) :
    processCard body id [] = .ok (⟨[⟨id, [id]⟩], []⟩, []) := rfl

end DebateCards

